import Mathlib

/-!
Verification of the graph-metrics engine of the `Licenta` repository
(`src/main.py`).

The development shallowly embeds:

* `read_matrices` (src/main.py lines 6-30): the multi-matrix text format
  reader, including Python's `str.strip`, `str.split`, `int(...)` and
  `dict` assignment semantics;
* `calculate_metrics` (src/main.py lines 33-43): the per-node degree and
  local clustering coefficient, via the semantics of
  `networkx.from_numpy_array`, `Graph.degree` and `networkx.clustering`
  for an unweighted undirected graph (self-loops allowed, a self-loop
  counting 2 towards the degree and being ignored by clustering);
* the healthy/sick grouping of `main` (src/main.py lines 89-90).

Floating point division in `nx.clustering` is modelled by exact division
in `ℚ`; Python `int` is modelled by `Int`.
-/

namespace Licenta

/-! ### Python string primitives -/

/-- The characters Python's `str.strip()` / `str.split()` treat as
whitespace (ASCII). -/
def wsChar (c : Char) : Bool :=
  c = ' ' ∨ c = '\t' ∨ c = '\n' ∨ c = '\r' ∨ c = '\x0b' ∨ c = '\x0c'

/-- Python `str.strip()`: drop leading and trailing whitespace. -/
def pyStrip (s : String) : String :=
  String.mk (((s.data.dropWhile wsChar).reverse.dropWhile wsChar).reverse)

/-- Accumulator-based splitter over characters: splits on runs of
whitespace, dropping empty pieces — the semantics of Python
`str.split()` with no argument.  `cur` holds the current token reversed. -/
def splitAux : List Char → List Char → List (List Char)
  | cur, [] => if cur = [] then [] else [cur.reverse]
  | cur, c :: cs =>
      if wsChar c then
        (if cur = [] then splitAux [] cs else cur.reverse :: splitAux [] cs)
      else splitAux (c :: cur) cs

/-- Python `str.split()` with no argument. -/
def pySplit (s : String) : List String :=
  (splitAux [] s.data).map String.mk

/-- Digit value of an ASCII digit character. -/
def digitVal (c : Char) : Nat := c.toNat - 48

/-- Digit tail of a Python integer literal: a run of ASCII digits in
which single underscores may separate digits (`int("1_0") = 10`,
`int("1__0")` and `int("1_")` fail). `acc` is the value read so far. -/
def digitsAux : Nat → List Char → Option Nat
  | acc, [] => some acc
  | acc, '_' :: cs =>
      match cs with
      | [] => none
      | c :: cs2 => if c.isDigit then digitsAux (acc * 10 + digitVal c) cs2 else none
  | acc, c :: cs => if c.isDigit then digitsAux (acc * 10 + digitVal c) cs else none

/-- Python `int(token)` on a whitespace-free token: an optional sign
followed by at least one ASCII digit, with optional single underscore
separators; `none` models a raised `ValueError`. -/
def pyIntOf : List Char → Option Int
  | '+' :: c :: cs =>
      if c.isDigit then (digitsAux (digitVal c) cs).map (fun n => (n : Int)) else none
  | '-' :: c :: cs =>
      if c.isDigit then (digitsAux (digitVal c) cs).map (fun n => -(n : Int)) else none
  | c :: cs =>
      if c.isDigit then (digitsAux (digitVal c) cs).map (fun n => (n : Int)) else none
  | [] => none

/-- Python `int` applied to one token of a data row. -/
def pyInt? (s : String) : Option Int := pyIntOf s.data

/-- Python `list(map(int, tokens))`: all tokens must parse as integers,
otherwise the whole row fails (`ValueError`). -/
def intsOf? : List String → Option (List Int)
  | [] => some []
  | t :: ts =>
      match pyInt? t, intsOf? ts with
      | some v, some vs => some (v :: vs)
      | _, _ => none

/-- Python substring test `needle in hay` on strings. -/
def pyIn (needle hay : String) : Bool :=
  hay.data.tails.any fun t => needle.data.isPrefixOf t

/-! ### Python `dict` as an insertion-ordered association list -/

/-- Python `d[k] = v` on an insertion-ordered dictionary: an existing
key keeps its position and gets the new value, a new key is appended. -/
def dictInsert : List (String × α) → String → α → List (String × α)
  | [], k, v => [(k, v)]
  | p :: ps, k, v => if p.1 = k then (k, v) :: ps else p :: dictInsert ps k v

/-- Python `d.get(k)` / `d[k]` lookup. -/
def dictLookup (d : List (String × α)) (k : String) : Option α :=
  (d.find? fun p => p.1 == k).map (fun p => p.2)

/-- The keys of a dictionary, in insertion order. -/
def dictKeys (d : List (String × α)) : List String := d.map Prod.fst

/-! ### The parser `read_matrices` (src/main.py lines 6-30) -/

/-- `np.array(matrix_data)` is modelled as the identity on the list of
rows; a matrix is the list of its rows. -/
abbrev Matrix' := List (List Int)

/-- The loop state of `read_matrices`: the dictionary built so far, the
current `matrix_name` (`None` before the first header) and the rows
accumulated in `matrix_data`. -/
structure PState where
  matrices : List (String × Matrix')
  matrix_name : Option String
  matrix_data : Matrix'
deriving Repr, DecidableEq

/-- The uncaught Python exceptions of `read_matrices`: `IndexError` from
`line.split()[2]` on a short header, `ValueError` from `int` on a bad
row token. -/
inductive ParseError where
  | badHeader (line : String) : ParseError
  | badToken (line : String) : ParseError
deriving Repr, DecidableEq

/-- The flush `matrices[matrix_name] = np.array(matrix_data)` guarded by
`if matrix_name is not None and matrix_data:`. -/
def flushInto (ms : List (String × Matrix')) (n? : Option String) (d : Matrix') :
    List (String × Matrix') :=
  match n? with
  | some n => if d = [] then ms else dictInsert ms n d
  | none => ms

/-- One iteration of the `for line in file` loop of `read_matrices`:
strip the line; a `# Matrix` header flushes the previous block and
starts a new one named by the third token; a non-empty line is a row of
integers; an empty line is skipped. -/
def step (st : PState) (line : String) : Except ParseError PState :=
  let t := pyStrip line
  if ("# Matrix").data.isPrefixOf t.data then
    match (pySplit t)[2]? with
    | some nm => .ok ⟨flushInto st.matrices st.matrix_name st.matrix_data, some nm, []⟩
    | none => .error (.badHeader t)
  else if t ≠ "" then
    match intsOf? (pySplit t) with
    | some row => .ok ⟨st.matrices, st.matrix_name, st.matrix_data ++ [row]⟩
    | none => .error (.badToken t)
  else .ok st

/-- `read_matrices` on the list of lines of the file: run the loop from
the empty state, then flush the trailing block. -/
def read_matrices (lines : List String) : Except ParseError (List (String × Matrix')) := do
  let st ← lines.foldlM step ⟨[], none, []⟩
  pure (flushInto st.matrices st.matrix_name st.matrix_data)

/-! ### The graph of `nx.from_numpy_array` and the metrics
(src/main.py lines 33-43) -/

/-- Entry `M[i][j]` of the parsed adjacency matrix. -/
def entry (M : Matrix') (i j : Nat) : Int := (M.getD i []).getD j 0

/-- The edge set of `nx.from_numpy_array(M)` for an undirected graph:
one undirected edge, normalised as `(min i j, max i j)`, for every
non-zero entry `M[i][j]`; an undirected graph stores `(i,j)` and
`(j,i)` as the same edge, and a non-zero diagonal entry yields the
self-loop `(i,i)`. -/
def graphEdges (M : Matrix') : List (Nat × Nat) :=
  ((List.range M.length).flatMap fun i =>
    (List.range M.length).filterMap fun j =>
      if entry M i j ≠ 0 then some (min i j, max i j) else none).dedup

/-- The adjacency view `G[v]` of the `networkx` graph: `j` is adjacent
to `v` iff some non-zero entry created the edge, i.e. iff
`M[v][j] ≠ 0` or `M[j][v] ≠ 0`; when `M[v][v] ≠ 0`, `v` is adjacent to
itself. -/
def nbhd (M : Matrix') (v : Nat) : Finset Nat :=
  (Finset.range M.length).filter fun j => entry M v j ≠ 0 ∨ entry M j v ≠ 0

/-- `dict(G.degree())[v]`: the number of adjacent nodes, a self-loop
counting twice (`networkx` counts a self-loop once among the neighbours
and once more as the `n in nbrs` correction). -/
def nxDegree (M : Matrix') (v : Nat) : Nat :=
  (nbhd M v).card + (if v ∈ nbhd M v then 1 else 0)

/-- `vs = set(G[v]) - {v}` in `networkx`'s clustering routine: the
neighbours of `v` other than `v` itself. -/
def nbrSet (M : Matrix') (v : Nat) : Finset Nat := (nbhd M v).erase v

/-- `ntriangles` of `networkx._triangles_and_degree_iter`: for each
neighbour `w` of `v`, the number of common neighbours of `v` and `w`
(each triangle through `v` is counted twice). -/
def triCount (M : Matrix') (v : Nat) : Nat :=
  ∑ w ∈ nbrSet M v, ((nbrSet M v) ∩ ((nbhd M w).erase w)).card

/-- `nx.clustering(G)[v]` for an unweighted graph:
`0 if t == 0 else t / (d * (d - 1))` with `d = len(vs)`,
exact rational division standing for float division. -/
def clusteringCoeff (M : Matrix') (v : Nat) : ℚ :=
  if triCount M v = 0 then 0
  else (triCount M v : ℚ) / ((((nbrSet M v).card * ((nbrSet M v).card - 1) : Nat)) : ℚ)

/-- `calculate_metrics` (src/main.py lines 33-43): the degree dictionary
and the clustering dictionary, keyed by the nodes `0..N-1` in order. -/
def calculate_metrics (M : Matrix') : List (Nat × Nat) × List (Nat × ℚ) :=
  ((List.range M.length).map fun v => (v, nxDegree M v),
   (List.range M.length).map fun v => (v, clusteringCoeff M v))

/-! ### The grouping of `main` (src/main.py lines 89-90) -/

/-- `[name for name in names if 'healthy' in name]`. -/
def healthy_names (names : List String) : List String :=
  names.filter fun n => pyIn "healthy" n

/-- `[name for name in names if 'healthy' not in name]`. -/
def sick (names : List String) : List String :=
  names.filter fun n => ! pyIn "healthy" n

/-! ### Line classification (used to state the parser claims) -/

/-- Whether a line is recognised as a header by `read_matrices`:
`line.strip().startswith('# Matrix')`. -/
def isHeaderL (l : String) : Bool := ("# Matrix").data.isPrefixOf (pyStrip l).data

/-- The name a header line carries (its third whitespace token), `none`
on non-header lines and on malformed headers. -/
def headerNameOf (l : String) : Option String :=
  if isHeaderL l then (pySplit (pyStrip l))[2]? else none

/-- The two failure conditions of the parser, as the specification
states them: a header line with fewer than 3 whitespace-separated
tokens, or a non-empty data line with a token that is not an integer. -/
def badLine (l : String) : Prop :=
  (isHeaderL l = true ∧ (pySplit (pyStrip l)).length < 3) ∨
  (isHeaderL l = false ∧ pyStrip l ≠ "" ∧ ∃ t ∈ pySplit (pyStrip l), pyInt? t = none)

/-! ### Reference block semantics of the text format

The specification describes the input as a sequence of blocks, each a
header followed by data rows; these definitions compute that block
structure directly, to be compared with what `read_matrices` builds. -/

/-- Close the current block: it becomes a parsed matrix exactly when a
header has been seen and at least one row accumulated. -/
def closeBlock (n? : Option String) (d : Matrix') : List (String × Matrix') :=
  match n? with
  | some n => if d = [] then [] else [(n, d)]
  | none => []

/-- The (named, non-empty) blocks of a line sequence, given the block
currently open: a header closes the open block and opens a new one, a
data row extends the open block, an empty line is skipped, and the end
of input closes the open block. -/
def scanBlocks : Option String → Matrix' → List String → List (String × Matrix')
  | n?, d, [] => closeBlock n? d
  | n?, d, l :: ls =>
      let t := pyStrip l
      if ("# Matrix").data.isPrefixOf t.data then
        closeBlock n? d ++ scanBlocks (pySplit t)[2]? [] ls
      else if t ≠ "" then
        scanBlocks n? (d ++ [(intsOf? (pySplit t)).getD []]) ls
      else scanBlocks n? d ls

/-- The blocks of a whole input. -/
def blocksOf (ls : List String) : List (String × Matrix') :=
  scanBlocks none [] ls

/-- Record a list of named matrices into a dictionary, in order. -/
def emit (ms : List (String × Matrix')) (bs : List (String × Matrix')) :
    List (String × Matrix') :=
  bs.foldl (fun d b => dictInsert d b.1 b.2) ms

/-! ### Matrix predicates and claim-side metric counts -/

/-- The matrix is square: every row is as long as the list of rows. -/
def SquareM (M : Matrix') : Prop := ∀ row ∈ M, row.length = M.length

/-- The matrix is symmetric. -/
def SymmM (M : Matrix') : Prop :=
  ∀ i < M.length, ∀ j < M.length, entry M i j = entry M j i

/-- The diagonal is zero. -/
def ZeroDiagM (M : Matrix') : Prop := ∀ i < M.length, entry M i i = 0

/-- All entries are 0 or 1. -/
def ZeroOneM (M : Matrix') : Prop :=
  ∀ i < M.length, ∀ j < M.length, entry M i j = 0 ∨ entry M i j = 1

/-- All entries are non-negative. -/
def NonNegM (M : Matrix') : Prop :=
  ∀ i < M.length, ∀ j < M.length, 0 ≤ entry M i j

/-- The number of distinct neighbours `j ≠ v` of `v`, the degree notion
the specification describes. -/
def neighborCount (M : Matrix') (v : Nat) : Nat :=
  ((Finset.range M.length).filter fun j =>
    j ≠ v ∧ (entry M v j ≠ 0 ∨ entry M j v ≠ 0)).card

/-- The number `T` of edges among the neighbour set of `v`: unordered
pairs `w < u` of distinct neighbours of `v` that are themselves
connected. -/
def edgesAmong (M : Matrix') (v : Nat) : Nat :=
  ∑ w ∈ nbrSet M v,
    ((nbrSet M v).filter fun u => w < u ∧ (entry M w u ≠ 0 ∨ entry M u w ≠ 0)).card

/-- Modelled from the spec: "reconstructing an adjacency matrix from the
Graph's edge set" (spec §8, Round-trip) — no such reconstruction exists
in `src/main.py`, so it is taken literally from the specification: cell
`(i, j)` is 1 when the undirected edge between `i` and `j` is in the
graph's edge set, and 0 otherwise. -/
def reconstruct (M : Matrix') : Matrix' :=
  (List.range M.length).map fun i =>
    (List.range M.length).map fun j =>
      if (min i j, max i j) ∈ graphEdges M then 1 else 0

/-! ## Dictionary lemmas -/

theorem dictLookup_cons (p : String × α) (ps : List (String × α)) (k : String) :
    dictLookup (p :: ps) k = if p.1 = k then some p.2 else dictLookup ps k := by
  unfold dictLookup
  rw [List.find?_cons]
  by_cases h : p.1 = k
  · simp [h]
  · have hb : (p.1 == k) = false := beq_eq_false_iff_ne.mpr h
    simp [hb, h]

theorem dictLookup_dictInsert (d : List (String × α)) (k : String) (v : α) (k' : String) :
    dictLookup (dictInsert d k v) k' = if k' = k then some v else dictLookup d k' := by
  induction d with
  | nil =>
      rcases eq_or_ne k' k with h | h
      · simp [dictInsert, dictLookup_cons, h]
      · simp [dictInsert, dictLookup_cons, dictLookup, h, Ne.symm h]
  | cons p ps ih =>
      by_cases hp : p.1 = k
      · subst hp
        rcases eq_or_ne k' p.1 with h | h
        · simp [dictInsert, dictLookup_cons, h]
        · simp [dictInsert, dictLookup_cons, h, Ne.symm h]
      · rcases eq_or_ne p.1 k' with hq | hq
        · have hk : k' ≠ k := fun hk => hp (hq.trans hk)
          simp [dictInsert, hp, dictLookup_cons, hq, hk]
        · simp [dictInsert, hp, dictLookup_cons, hq, ih]

theorem mem_dictKeys_dictInsert (d : List (String × α)) (k : String) (v : α) (x : String) :
    x ∈ dictKeys (dictInsert d k v) ↔ x ∈ dictKeys d ∨ x = k := by
  induction d with
  | nil => simp [dictInsert, dictKeys]
  | cons p ps ih =>
      simp only [dictKeys] at ih ⊢
      by_cases hp : p.1 = k
      · subst hp
        rw [show dictInsert (p :: ps) p.1 v = (p.1, v) :: ps by simp [dictInsert]]
        simp only [List.map_cons, List.mem_cons]
        tauto
      · rw [show dictInsert (p :: ps) k v = p :: dictInsert ps k v by simp [dictInsert, hp]]
        simp only [List.map_cons, List.mem_cons]
        rw [ih]
        tauto

theorem dictKeys_dictInsert_nodup (d : List (String × α)) (k : String) (v : α)
    (h : (dictKeys d).Nodup) : (dictKeys (dictInsert d k v)).Nodup := by
  induction d with
  | nil => simp [dictInsert, dictKeys]
  | cons p ps ih =>
      simp only [dictKeys, List.map_cons, List.nodup_cons] at h
      obtain ⟨h1, h2⟩ := h
      by_cases hp : p.1 = k
      · subst hp
        rw [show dictInsert (p :: ps) p.1 v = (p.1, v) :: ps by simp [dictInsert]]
        simp only [dictKeys, List.map_cons, List.nodup_cons]
        exact ⟨h1, h2⟩
      · have hmem : p.1 ∉ dictKeys (dictInsert ps k v) := by
          rw [mem_dictKeys_dictInsert]
          rintro (hm | hm)
          · exact h1 hm
          · exact hp hm
        rw [show dictInsert (p :: ps) k v = p :: dictInsert ps k v by simp [dictInsert, hp]]
        simp only [dictKeys, List.map_cons, List.nodup_cons]
        exact ⟨fun hx => hmem hx, ih h2⟩

theorem dictLookup_eq_none_iff (d : List (String × α)) (k : String) :
    dictLookup d k = none ↔ k ∉ dictKeys d := by
  unfold dictLookup dictKeys
  rw [Option.map_eq_none', List.find?_eq_none]
  constructor
  · intro h hk
    obtain ⟨p, hp, hpk⟩ := List.mem_map.mp hk
    exact h p hp (by simp [hpk])
  · intro h p hp hb
    exact h (List.mem_map.mpr ⟨p, hp, by simpa using hb⟩)

/-! ## Row parsing lemmas -/

theorem intsOf?_eq_none_iff (ts : List String) :
    intsOf? ts = none ↔ ∃ t ∈ ts, pyInt? t = none := by
  induction ts with
  | nil => simp [intsOf?]
  | cons t ts ih =>
      cases hv : pyInt? t with
      | none =>
          simp only [intsOf?, hv]
          exact iff_of_true (by simp) ⟨t, List.mem_cons_self t ts, hv⟩
      | some v =>
          cases hr : intsOf? ts with
          | none =>
              simp only [intsOf?, hv, hr]
              refine iff_of_true (by simp) ?_
              obtain ⟨x, hx, hxn⟩ := ih.mp hr
              exact ⟨x, List.mem_cons_of_mem _ hx, hxn⟩
          | some vs =>
              simp only [intsOf?, hv, hr]
              refine iff_of_false (by simp) ?_
              rintro ⟨x, hx, hxn⟩
              rcases List.mem_cons.mp hx with rfl | hx2
              · rw [hv] at hxn; cases hxn
              · have := ih.mpr ⟨x, hx2, hxn⟩
                rw [hr] at this; cases this

/-! ## `Except` bind lemmas -/

theorem exceptBind_ok (a : α) (f : α → Except ε β) : (Except.ok a >>= f) = f a := rfl

theorem exceptBind_error (e : ε) (f : α → Except ε β) :
    (Except.error e >>= f : Except ε β) = Except.error e := rfl

theorem exceptPure (a : α) : (pure a : Except ε α) = Except.ok a := rfl

/-! ## One-step lemmas for the parser loop -/

theorem step_blank (st : PState) (l : String) (hb : pyStrip l = "") :
    step st l = .ok st := by
  simp [step, hb]

theorem step_header (st : PState) (l : String) (nm : String)
    (hH : isHeaderL l = true) (hnm : (pySplit (pyStrip l))[2]? = some nm) :
    step st l = .ok ⟨flushInto st.matrices st.matrix_name st.matrix_data, some nm, []⟩ := by
  have hH' : ("# Matrix").data.isPrefixOf (pyStrip l).data = true := hH
  simp [step, hH', hnm]

theorem step_row (st : PState) (l : String) (r : List Int)
    (hH : isHeaderL l = false) (hne : pyStrip l ≠ "")
    (hr : intsOf? (pySplit (pyStrip l)) = some r) :
    step st l = .ok ⟨st.matrices, st.matrix_name, st.matrix_data ++ [r]⟩ := by
  have hH' : ("# Matrix").data.isPrefixOf (pyStrip l).data = false := hH
  simp [step, hH', hne, hr]

theorem step_ok_cases (st : PState) (l : String) (st' : PState) (h : step st l = .ok st') :
    (∃ nm, isHeaderL l = true ∧ (pySplit (pyStrip l))[2]? = some nm ∧
      st' = ⟨flushInto st.matrices st.matrix_name st.matrix_data, some nm, []⟩) ∨
    (∃ r, isHeaderL l = false ∧ pyStrip l ≠ "" ∧ intsOf? (pySplit (pyStrip l)) = some r ∧
      st' = ⟨st.matrices, st.matrix_name, st.matrix_data ++ [r]⟩) ∨
    (isHeaderL l = false ∧ pyStrip l = "" ∧ st' = st) := by
  simp only [step] at h
  split at h
  next hH =>
      split at h
      next nm hnm =>
          left
          refine ⟨nm, by simpa [isHeaderL] using hH, hnm, ?_⟩
          cases h
          rfl
      next hnm => cases h
  next hH =>
      split at h
      next hne =>
          split at h
          next r hr =>
              right; left
              refine ⟨r, Bool.eq_false_iff.mpr hH, hne, hr, ?_⟩
              cases h
              rfl
          next hr => cases h
      next hne =>
          right; right
          refine ⟨Bool.eq_false_iff.mpr hH, not_not.mp hne, ?_⟩
          cases h
          rfl

theorem step_error_iff (st : PState) (l : String) :
    (∃ e, step st l = .error e) ↔ badLine l := by
  unfold badLine
  by_cases hH : ("# Matrix").data.isPrefixOf (pyStrip l).data = true
  · have hHL : isHeaderL l = true := hH
    cases h2 : (pySplit (pyStrip l))[2]? with
    | some nm =>
        rw [step_header st l nm hHL h2]
        have hlen : 2 < (pySplit (pyStrip l)).length :=
          (List.getElem?_eq_some_iff.mp h2).1
        refine iff_of_false (by simp) ?_
        rintro (⟨_, hlt⟩ | ⟨hF, _⟩)
        · omega
        · rw [hHL] at hF; cases hF
    | none =>
        have hlen : (pySplit (pyStrip l)).length ≤ 2 := List.getElem?_eq_none_iff.mp h2
        have hst : step st l = .error (.badHeader (pyStrip l)) := by
          simp [step, hH, h2]
        refine iff_of_true ⟨_, hst⟩ (Or.inl ⟨hHL, by omega⟩)
  · have hHL : isHeaderL l = false := Bool.eq_false_iff.mpr hH
    by_cases hne : pyStrip l = ""
    · rw [step_blank st l hne]
      refine iff_of_false (by simp) ?_
      rintro (⟨hT, _⟩ | ⟨_, hne2, _⟩)
      · rw [hHL] at hT; cases hT
      · exact hne2 hne
    · cases hr : intsOf? (pySplit (pyStrip l)) with
      | some r =>
          rw [step_row st l r hHL hne hr]
          refine iff_of_false (by simp) ?_
          rintro (⟨hT, _⟩ | ⟨_, _, hex⟩)
          · rw [hHL] at hT; cases hT
          · have := intsOf?_eq_none_iff (pySplit (pyStrip l)) |>.mpr hex
            rw [hr] at this; cases this
      | none =>
          have hst : step st l = .error (.badToken (pyStrip l)) := by
            simp [step, hH, hne, hr]
          exact iff_of_true ⟨_, hst⟩
            (Or.inr ⟨hHL, hne, (intsOf?_eq_none_iff _).mp hr⟩)

/-! ## The parser fails exactly on bad lines -/

theorem foldlM_step_error_iff (ls : List String) : ∀ st : PState,
    (∃ e, List.foldlM step st ls = .error e) ↔ ∃ l ∈ ls, badLine l := by
  induction ls with
  | nil =>
      intro st
      rw [List.foldlM_nil]
      exact iff_of_false (by rintro ⟨e, he⟩; cases he) (by simp)
  | cons l ls ih =>
      intro st
      rw [List.foldlM_cons]
      cases hs : step st l with
      | error e =>
          rw [exceptBind_error]
          refine iff_of_true ⟨e, rfl⟩ ?_
          exact ⟨l, List.mem_cons_self l ls, (step_error_iff st l).mp ⟨e, hs⟩⟩
      | ok st1 =>
          rw [exceptBind_ok, ih st1]
          have hnb : ¬ badLine l := by
            intro hb
            obtain ⟨e, he⟩ := (step_error_iff st l).mpr hb
            rw [hs] at he; cases he
          constructor
          · rintro ⟨x, hx, hbx⟩
            exact ⟨x, List.mem_cons_of_mem _ hx, hbx⟩
          · rintro ⟨x, hx, hbx⟩
            rcases List.mem_cons.mp hx with rfl | hx2
            · exact absurd hbx hnb
            · exact ⟨x, hx2, hbx⟩

theorem read_matrices_error_iff (ls : List String) :
    (∃ e, read_matrices ls = .error e) ↔ ∃ l ∈ ls, badLine l := by
  rw [← foldlM_step_error_iff ls ⟨[], none, []⟩]
  have hread : read_matrices ls =
      (List.foldlM step ⟨[], none, []⟩ ls) >>= fun st =>
        pure (flushInto st.matrices st.matrix_name st.matrix_data) := rfl
  rw [hread]
  cases h : List.foldlM step ⟨[], none, []⟩ ls with
  | error e =>
      rw [exceptBind_error]
      exact iff_of_true ⟨e, rfl⟩ ⟨e, rfl⟩
  | ok st =>
      rw [exceptBind_ok]
      constructor
      · rintro ⟨e, he⟩
        rw [exceptPure] at he
        cases he
      · rintro ⟨e, he⟩
        cases he

/-! ## The parser result as the block structure of the input -/

theorem emit_append (ms : List (String × Matrix')) (bs cs : List (String × Matrix')) :
    emit ms (bs ++ cs) = emit (emit ms bs) cs := by
  unfold emit
  exact List.foldl_append _ _ _ _

theorem emit_closeBlock (ms : List (String × Matrix')) (n? : Option String) (d : Matrix') :
    emit ms (closeBlock n? d) = flushInto ms n? d := by
  cases n? with
  | none => rfl
  | some n => by_cases hd : d = [] <;> simp [closeBlock, flushInto, hd, emit]

theorem foldlM_step_blocks (ls : List String) : ∀ st st' : PState,
    List.foldlM step st ls = .ok st' →
    flushInto st'.matrices st'.matrix_name st'.matrix_data =
      emit st.matrices (scanBlocks st.matrix_name st.matrix_data ls) := by
  induction ls with
  | nil =>
      intro st st' h
      rw [List.foldlM_nil, exceptPure] at h
      cases h
      rw [show scanBlocks st.matrix_name st.matrix_data [] =
        closeBlock st.matrix_name st.matrix_data from rfl]
      rw [emit_closeBlock]
  | cons l ls ih =>
      intro st st' h
      rw [List.foldlM_cons] at h
      cases hs : step st l with
      | error e => rw [hs, exceptBind_error] at h; cases h
      | ok st1 =>
          rw [hs, exceptBind_ok] at h
          rcases step_ok_cases st l st1 hs with
            ⟨nm, hH, hnm, hst1⟩ | ⟨r, hH, hne, hr, hst1⟩ | ⟨hH, hb, hst1⟩
          · have hH' : ("# Matrix").data.isPrefixOf (pyStrip l).data = true := hH
            have hscan : scanBlocks st.matrix_name st.matrix_data (l :: ls) =
                closeBlock st.matrix_name st.matrix_data ++ scanBlocks (some nm) [] ls := by
              simp [scanBlocks, hH', hnm]
            rw [hscan, emit_append, emit_closeBlock]
            have hrec := ih st1 st' h
            rw [hst1] at hrec
            simpa using hrec
          · have hH' : ("# Matrix").data.isPrefixOf (pyStrip l).data = false := hH
            have hscan : scanBlocks st.matrix_name st.matrix_data (l :: ls) =
                scanBlocks st.matrix_name (st.matrix_data ++ [r]) ls := by
              simp [scanBlocks, hH', hne, hr]
            rw [hscan]
            have hrec := ih st1 st' h
            rw [hst1] at hrec
            simpa using hrec
          · have hH' : ("# Matrix").data.isPrefixOf (pyStrip l).data = false := hH
            have hscan : scanBlocks st.matrix_name st.matrix_data (l :: ls) =
                scanBlocks st.matrix_name st.matrix_data ls := by
              simp [scanBlocks, hH', hb]
            rw [hscan]
            have hrec := ih st1 st' h
            rw [hst1] at hrec
            exact hrec

theorem read_matrices_ok_eq (ls : List String) (m : List (String × Matrix'))
    (h : read_matrices ls = .ok m) : m = emit [] (blocksOf ls) := by
  have h2 : (List.foldlM step ⟨[], none, []⟩ ls) >>= (fun st =>
      pure (flushInto st.matrices st.matrix_name st.matrix_data)) = .ok m := h
  cases hf : List.foldlM step ⟨[], none, []⟩ ls with
  | error e => rw [hf, exceptBind_error] at h2; cases h2
  | ok st =>
      rw [hf, exceptBind_ok, exceptPure] at h2
      have hm : flushInto st.matrices st.matrix_name st.matrix_data = m :=
        congrArg (fun x => match x with | Except.ok y => y | Except.error _ => []) h2
      rw [← hm]
      exact foldlM_step_blocks ls ⟨[], none, []⟩ st hf

theorem dictLookup_emit (bs : List (String × Matrix')) :
    ∀ (ms : List (String × Matrix')) (k : String),
    dictLookup (emit ms bs) k =
      match (bs.filter fun b => b.1 == k).getLast? with
      | some b => some b.2
      | none => dictLookup ms k := by
  induction bs with
  | nil => intro ms k; simp [emit]
  | cons b bs ih =>
      intro ms k
      have hemit : emit ms (b :: bs) = emit (dictInsert ms b.1 b.2) bs := rfl
      rw [hemit, ih]
      by_cases hb : b.1 = k
      · have hfil : ((b :: bs).filter fun x => x.1 == k) =
            b :: (bs.filter fun x => x.1 == k) := by
          simp [List.filter_cons, hb]
        rw [hfil]
        cases hl : (bs.filter fun x => x.1 == k).getLast? with
        | some p => simp [List.getLast?_cons, hl]
        | none =>
            rw [List.getLast?_eq_none_iff] at hl
            rw [hl]
            simp [dictLookup_dictInsert, hb.symm]
      · have hfil : ((b :: bs).filter fun x => x.1 == k) =
            bs.filter fun x => x.1 == k := by
          simp [List.filter_cons, hb]
        rw [hfil]
        cases hl : (bs.filter fun x => x.1 == k).getLast? with
        | some p => rfl
        | none =>
            have hk : ¬ k = b.1 := fun h2 => hb h2.symm
            simp [dictLookup_dictInsert, hk]

theorem mem_dictInsert (d : List (String × α)) (k : String) (v : α) (x : String × α)
    (h : x ∈ dictInsert d k v) : x ∈ d ∨ x = (k, v) := by
  induction d with
  | nil => simpa [dictInsert] using h
  | cons p ps ih =>
      by_cases hp : p.1 = k
      · rw [show dictInsert (p :: ps) k v = (k, v) :: ps by simp [dictInsert, hp]] at h
        rcases List.mem_cons.mp h with rfl | h2
        · right; rfl
        · left; exact List.mem_cons_of_mem _ h2
      · rw [show dictInsert (p :: ps) k v = p :: dictInsert ps k v by
          simp [dictInsert, hp]] at h
        rcases List.mem_cons.mp h with rfl | h2
        · left; exact List.mem_cons_self _ _
        · rcases ih h2 with h3 | h3
          · left; exact List.mem_cons_of_mem _ h3
          · right; exact h3

theorem mem_emit (bs : List (String × Matrix')) :
    ∀ (ms : List (String × Matrix')) (x : String × Matrix'),
    x ∈ emit ms bs → x ∈ ms ∨ x ∈ bs := by
  induction bs with
  | nil => intro ms x h; exact Or.inl h
  | cons b bs ih =>
      intro ms x h
      have hemit : emit ms (b :: bs) = emit (dictInsert ms b.1 b.2) bs := rfl
      rw [hemit] at h
      rcases ih _ x h with h2 | h2
      · rcases mem_dictInsert _ _ _ _ h2 with h3 | h3
        · exact Or.inl h3
        · right
          rw [h3]
          exact List.mem_cons_self _ _
      · right; exact List.mem_cons_of_mem _ h2

theorem mem_scanBlocks_ne_nil (ls : List String) :
    ∀ (n? : Option String) (d : Matrix') (b : String × Matrix'),
    b ∈ scanBlocks n? d ls → b.2 ≠ [] := by
  induction ls with
  | nil =>
      intro n? d b hb
      cases n? with
      | none => cases hb
      | some n =>
          by_cases hd : d = []
          · rw [show scanBlocks (some n) d [] = [] by
              simp [scanBlocks, closeBlock, hd]] at hb
            cases hb
          · rw [show scanBlocks (some n) d [] = [(n, d)] by
              simp [scanBlocks, closeBlock, hd]] at hb
            rcases List.mem_cons.mp hb with rfl | h2
            · exact hd
            · cases h2
  | cons l ls ih =>
      intro n? d b hb
      by_cases hH : ("# Matrix").data.isPrefixOf (pyStrip l).data = true
      · rw [show scanBlocks n? d (l :: ls) =
            closeBlock n? d ++ scanBlocks (pySplit (pyStrip l))[2]? [] ls by
            simp [scanBlocks, hH]] at hb
        rcases List.mem_append.mp hb with h2 | h2
        · cases n? with
          | none => cases h2
          | some n =>
              by_cases hd : d = []
              · rw [show closeBlock (some n) d = [] by simp [closeBlock, hd]] at h2
                cases h2
              · rw [show closeBlock (some n) d = [(n, d)] by simp [closeBlock, hd]] at h2
                rcases List.mem_cons.mp h2 with rfl | h3
                · exact hd
                · cases h3
        · exact ih _ _ _ h2
      · have hH' : ("# Matrix").data.isPrefixOf (pyStrip l).data = false :=
          Bool.eq_false_iff.mpr hH
        by_cases hne : pyStrip l = ""
        · rw [show scanBlocks n? d (l :: ls) = scanBlocks n? d ls by
            simp [scanBlocks, hH', hne]] at hb
          exact ih _ _ _ hb
        · rw [show scanBlocks n? d (l :: ls) =
              scanBlocks n? (d ++ [(intsOf? (pySplit (pyStrip l))).getD []]) ls by
              simp [scanBlocks, hH', hne]] at hb
          exact ih _ _ _ hb

theorem flushInto_no_key (ms : List (String × Matrix')) (n? : Option String) (d : Matrix')
    (nm : String) (hms : nm ∉ dictKeys ms) (hn : n? ≠ some nm) :
    nm ∉ dictKeys (flushInto ms n? d) := by
  cases n? with
  | none => exact hms
  | some n =>
      by_cases hd : d = []
      · simpa [flushInto, hd] using hms
      · rw [show flushInto ms (some n) d = dictInsert ms n d by simp [flushInto, hd]]
        rw [mem_dictKeys_dictInsert]
        rintro (h | h)
        · exact hms h
        · exact hn (by rw [h])

theorem foldlM_step_no_key (ls : List String) (nm : String) : ∀ st st' : PState,
    List.foldlM step st ls = .ok st' →
    (∀ l ∈ ls, headerNameOf l ≠ some nm) →
    nm ∉ dictKeys st.matrices → st.matrix_name ≠ some nm →
    nm ∉ dictKeys st'.matrices ∧ st'.matrix_name ≠ some nm := by
  induction ls with
  | nil =>
      intro st st' h _ hms hn
      rw [List.foldlM_nil, exceptPure] at h
      cases h
      exact ⟨hms, hn⟩
  | cons l ls ih =>
      intro st st' h hhd hms hn
      rw [List.foldlM_cons] at h
      cases hs : step st l with
      | error e => rw [hs, exceptBind_error] at h; cases h
      | ok st1 =>
          rw [hs, exceptBind_ok] at h
          have hhd1 : ∀ x ∈ ls, headerNameOf x ≠ some nm := fun x hx =>
            hhd x (List.mem_cons_of_mem _ hx)
          rcases step_ok_cases st l st1 hs with
            ⟨nm', hH, hnm, hst1⟩ | ⟨r, hH, hne, hr, hst1⟩ | ⟨hH, hb, hst1⟩
          · have hname : headerNameOf l = some nm' := by
              simp [headerNameOf, hH, hnm]
            have hnm' : nm' ≠ nm := by
              intro hEq
              exact hhd l (List.mem_cons_self _ _) (by rw [hname, hEq])
            refine ih st1 st' h hhd1 ?_ ?_
            · rw [hst1]
              exact flushInto_no_key _ _ _ _ hms hn
            · rw [hst1]
              exact fun hEq => hnm' (Option.some.inj hEq)
          · refine ih st1 st' h hhd1 ?_ ?_
            · rw [hst1]; exact hms
            · rw [hst1]; exact hn
          · refine ih st1 st' h hhd1 ?_ ?_
            · rw [hst1]; exact hms
            · rw [hst1]; exact hn

theorem foldlM_step_rows (ds : List String) :
    ∀ (ms : List (String × Matrix')) (n? : Option String) (d : Matrix'),
    (∀ l ∈ ds, isHeaderL l = false ∧ pyStrip l ≠ "" ∧
      intsOf? (pySplit (pyStrip l)) ≠ none) →
    List.foldlM step ⟨ms, n?, d⟩ ds =
      .ok ⟨ms, n?, d ++ ds.map fun l => (intsOf? (pySplit (pyStrip l))).getD []⟩ := by
  induction ds with
  | nil => intro ms n? d _; simp [List.foldlM_nil, exceptPure]
  | cons l ds ih =>
      intro ms n? d hrow
      obtain ⟨hH, hne, hint⟩ := hrow l (List.mem_cons_self _ _)
      cases hr : intsOf? (pySplit (pyStrip l)) with
      | none => exact absurd hr hint
      | some r =>
          rw [List.foldlM_cons, step_row ⟨ms, n?, d⟩ l r hH hne hr, exceptBind_ok]
          rw [ih ms n? (d ++ [r]) (fun x hx => hrow x (List.mem_cons_of_mem _ hx))]
          simp [hr]

theorem dictKeys_emit_nodup (bs : List (String × Matrix')) :
    ∀ ms : List (String × Matrix'),
    (dictKeys ms).Nodup → (dictKeys (emit ms bs)).Nodup := by
  induction bs with
  | nil => intro ms h; exact h
  | cons b bs ih =>
      intro ms h
      have hemit : emit ms (b :: bs) = emit (dictInsert ms b.1 b.2) bs := rfl
      rw [hemit]
      exact ih _ (dictKeys_dictInsert_nodup _ _ _ h)

/-! ## Claims about the parser -/

/-- C4 (counterexample): an empty line does NOT terminate the current
matrix's row collection.  On the input `# Matrix A / 1 / (empty) / 2`
the parser returns the matrix `[[1],[2]]` for `A`, i.e. the row read
after the empty line is still part of `A`'s matrix, contradicting the
claim that only the rows before the empty line make it up. -/
theorem C4_empty_line_cex :
    read_matrices ["# Matrix A", "1", "", "2"] = .ok [("A", [[1], [2]])] ∧
    [[(1 : Int)], [2]] ≠ [[(1 : Int)]] :=
  ⟨rfl, by decide⟩

/-- C4 (amended): a line that strips to the empty string is simply
skipped by `read_matrices`: deleting it from the input leaves the parse
result unchanged, so rows keep accumulating into the current matrix
until the next header line or the end of input. -/
theorem C4_empty_line_skipped (p q : List String) (t : String) (hb : pyStrip t = "") :
    read_matrices (p ++ t :: q) = read_matrices (p ++ q) := by
  have h1 : read_matrices (p ++ t :: q) =
      (List.foldlM step ⟨[], none, []⟩ (p ++ t :: q)) >>= (fun st =>
        pure (flushInto st.matrices st.matrix_name st.matrix_data)) := rfl
  have h2 : read_matrices (p ++ q) =
      (List.foldlM step ⟨[], none, []⟩ (p ++ q)) >>= (fun st =>
        pure (flushInto st.matrices st.matrix_name st.matrix_data)) := rfl
  rw [h1, h2, List.foldlM_append, List.foldlM_append]
  cases hp : List.foldlM step ⟨[], none, []⟩ p with
  | error e => simp only [exceptBind_error]
  | ok st =>
      simp only [exceptBind_ok]
      rw [List.foldlM_cons, step_blank st t hb, exceptBind_ok]

/-- Witness for C4 (amended) at a concrete input. -/
theorem C4_empty_line_skipped_witness :
    read_matrices (["# Matrix A", "1"] ++ "" :: ["2"]) =
      read_matrices (["# Matrix A", "1"] ++ ["2"]) :=
  C4_empty_line_skipped ["# Matrix A", "1"] ["2"] "" rfl

/-- C5: flush-on-end.  If the input ends with a header of name `nm`
followed by a non-empty run of data rows (no further header, no empty
line) up to the end of input, then the parse result maps `nm` to
exactly those parsed rows. -/
theorem C5_flush_on_end (p ds : List String) (h : String) (nm : String)
    (m : List (String × Matrix'))
    (hH : isHeaderL h = true)
    (hnm : (pySplit (pyStrip h))[2]? = some nm)
    (hds : ds ≠ [])
    (hrow : ∀ l ∈ ds, isHeaderL l = false ∧ pyStrip l ≠ "" ∧
      intsOf? (pySplit (pyStrip l)) ≠ none)
    (hm : read_matrices (p ++ h :: ds) = .ok m) :
    dictLookup m nm =
      some (ds.map fun l => (intsOf? (pySplit (pyStrip l))).getD []) := by
  have h2 : (List.foldlM step ⟨[], none, []⟩ (p ++ h :: ds)) >>= (fun st =>
      pure (flushInto st.matrices st.matrix_name st.matrix_data)) = .ok m := hm
  rw [List.foldlM_append] at h2
  cases hp : List.foldlM step ⟨[], none, []⟩ p with
  | error e => rw [hp, exceptBind_error, exceptBind_error] at h2; cases h2
  | ok stp =>
      rw [hp, exceptBind_ok, List.foldlM_cons, step_header stp h nm hH hnm,
        exceptBind_ok] at h2
      rw [foldlM_step_rows ds _ (some nm) [] hrow, exceptBind_ok, exceptPure] at h2
      have hm2 := Except.ok.inj h2
      rw [← hm2]
      rw [show flushInto (flushInto stp.matrices stp.matrix_name stp.matrix_data)
          (some nm) ([] ++ ds.map fun l => (intsOf? (pySplit (pyStrip l))).getD []) =
          dictInsert (flushInto stp.matrices stp.matrix_name stp.matrix_data) nm
            ([] ++ ds.map fun l => (intsOf? (pySplit (pyStrip l))).getD []) by
        simp [flushInto, hds]]
      rw [dictLookup_dictInsert]
      simp

/-- Witness for C5 at the concrete input `# Matrix A / 1`. -/
theorem C5_flush_on_end_witness :
    dictLookup [("A", ([[1]] : Matrix'))] "A" =
      some ((["1"]).map fun l => (intsOf? (pySplit (pyStrip l))).getD []) :=
  C5_flush_on_end [] ["1"] "# Matrix A" "A" [("A", [[1]])] rfl rfl (by decide)
    (by decide) rfl

/-- C6: empty-block policy.  A header immediately followed by another
header contributes no entry: if the name `nm` appears as a header name
only there, the result has no entry under `nm`; and in general every
matrix in the result has at least one row. -/
theorem C6_empty_block_policy :
    (∀ (p rest : List String) (h1 h2 : String) (nm : String)
        (m : List (String × Matrix')),
      headerNameOf h1 = some nm →
      isHeaderL h2 = true →
      headerNameOf h2 ≠ some nm →
      (∀ l ∈ p, headerNameOf l ≠ some nm) →
      (∀ l ∈ rest, headerNameOf l ≠ some nm) →
      read_matrices (p ++ h1 :: h2 :: rest) = .ok m →
      dictLookup m nm = none) ∧
    (∀ (ls : List String) (m : List (String × Matrix')),
      read_matrices ls = .ok m → ∀ b ∈ m, b.2 ≠ []) := by
  constructor
  · intro p rest h1 h2 nm m e1 e2 hne hp hr hm
    have hH1 : isHeaderL h1 = true := by
      by_contra hF
      have hnone : headerNameOf h1 = none := by
        simp [headerNameOf, Bool.eq_false_iff.mpr hF]
      rw [hnone] at e1; cases e1
    have hnm1 : (pySplit (pyStrip h1))[2]? = some nm := by
      simpa [headerNameOf, hH1] using e1
    have hmbind : (List.foldlM step ⟨[], none, []⟩ (p ++ h1 :: h2 :: rest)) >>=
        (fun st => pure (flushInto st.matrices st.matrix_name st.matrix_data)) =
        .ok m := hm
    rw [List.foldlM_append] at hmbind
    cases hfp : List.foldlM step ⟨[], none, []⟩ p with
    | error e => rw [hfp, exceptBind_error, exceptBind_error] at hmbind; cases hmbind
    | ok stp =>
        rw [hfp, exceptBind_ok, List.foldlM_cons, step_header stp h1 nm hH1 hnm1,
          exceptBind_ok, List.foldlM_cons] at hmbind
        cases hs2 : step ⟨flushInto stp.matrices stp.matrix_name stp.matrix_data,
            some nm, []⟩ h2 with
        | error e =>
            rw [hs2, exceptBind_error, exceptBind_error] at hmbind; cases hmbind
        | ok st2 =>
            rw [hs2, exceptBind_ok] at hmbind
            rcases step_ok_cases _ h2 st2 hs2 with
              ⟨nm2, _, hnm2, hst2⟩ | ⟨r, hF, _, _, _⟩ | ⟨hF, _, _⟩
            · have hnm2ne : nm2 ≠ nm := by
                intro hEq
                exact hne (by simp [headerNameOf, e2, hnm2, hEq])
              have hkp := foldlM_step_no_key p nm ⟨[], none, []⟩ stp hfp hp
                (by simp [dictKeys]) (by simp)
              have hkey1 : nm ∉ dictKeys
                  (flushInto stp.matrices stp.matrix_name stp.matrix_data) :=
                flushInto_no_key _ _ _ _ hkp.1 hkp.2
              have hst2m : st2.matrices =
                  flushInto stp.matrices stp.matrix_name stp.matrix_data := by
                rw [hst2]
                simp [flushInto]
              have hst2n : st2.matrix_name = some nm2 := by rw [hst2]
              cases hfr : List.foldlM step st2 rest with
              | error e => rw [hfr, exceptBind_error] at hmbind; cases hmbind
              | ok stf =>
                  rw [hfr, exceptBind_ok, exceptPure] at hmbind
                  have hkf := foldlM_step_no_key rest nm st2 stf hfr hr
                    (by rw [hst2m]; exact hkey1)
                    (by rw [hst2n]; exact fun hEq => hnm2ne (Option.some.inj hEq))
                  have hkeyf : nm ∉ dictKeys
                      (flushInto stf.matrices stf.matrix_name stf.matrix_data) :=
                    flushInto_no_key _ _ _ _ hkf.1 hkf.2
                  rw [← Except.ok.inj hmbind]
                  exact (dictLookup_eq_none_iff _ _).mpr hkeyf
            · rw [e2] at hF; cases hF
            · rw [e2] at hF; cases hF
  · intro ls m hm b hb
    have hEq := read_matrices_ok_eq ls m hm
    rw [hEq] at hb
    rcases mem_emit _ _ _ hb with h2 | h2
    · cases h2
    · exact mem_scanBlocks_ne_nil ls none [] b h2

/-- Witness for C6 at the concrete input `# Matrix A / # Matrix B / 1`:
no entry is produced under the name `A`. -/
theorem C6_empty_block_policy_witness :
    dictLookup [("B", ([[1]] : Matrix'))] "A" = none :=
  C6_empty_block_policy.1 [] ["1"] "# Matrix A" "# Matrix B" "A" [("B", [[1]])]
    rfl rfl (by decide) (by simp) (by decide) rfl

/-- C7: the parser fails with a parse error exactly when some line is a
header with fewer than 3 whitespace tokens or a non-empty data line
with a non-integer token; on inputs free of bad lines it returns a
mapping. -/
theorem C7_parse_failure_characterization (ls : List String) :
    ((∃ e, read_matrices ls = .error e) ↔ ∃ l ∈ ls, badLine l) ∧
    ((∀ l ∈ ls, ¬ badLine l) → ∃ m, read_matrices ls = .ok m) := by
  refine ⟨read_matrices_error_iff ls, ?_⟩
  intro hgood
  cases h : read_matrices ls with
  | ok m => exact ⟨m, rfl⟩
  | error e =>
      obtain ⟨l, hl, hb⟩ := (read_matrices_error_iff ls).mp ⟨e, h⟩
      exact absurd hb (hgood l hl)

/-- Witness for C7: the lone short header `# Matrix` is rejected. -/
theorem C7_parse_failure_witness :
    ∃ e, read_matrices ["# Matrix"] = .error e :=
  (C7_parse_failure_characterization ["# Matrix"]).1.mpr
    ⟨"# Matrix", List.mem_cons_self _ _, Or.inl ⟨by decide, by decide⟩⟩

/-- C10: duplicate header names.  The result dictionary has pairwise
distinct keys (hence at most one entry per name), and the entry under
any name `nm` is the matrix of the last block of the input that is
headed `nm` and accumulated at least one data row. -/
theorem C10_duplicate_headers_last_block (ls : List String)
    (m : List (String × Matrix')) (nm : String)
    (hm : read_matrices ls = .ok m) :
    (dictKeys m).Nodup ∧
    dictLookup m nm =
      ((blocksOf ls).filter fun b => b.1 == nm).getLast?.map (fun b => b.2) := by
  have hEq := read_matrices_ok_eq ls m hm
  constructor
  · rw [hEq]
    exact dictKeys_emit_nodup _ _ (by simp [dictKeys])
  · rw [hEq, dictLookup_emit]
    cases hl : ((blocksOf ls).filter fun b => b.1 == nm).getLast? with
    | some b => rfl
    | none => rfl

/-- Witness for C10 at the concrete input
`# Matrix A / 1 / # Matrix A / 2 / # Matrix A`: the single entry under
`A` is `[[2]]`, the matrix of the last `A` block with rows. -/
theorem C10_duplicate_headers_witness :
    (dictKeys [("A", ([[2]] : Matrix'))]).Nodup ∧
    dictLookup [("A", ([[2]] : Matrix'))] "A" =
      ((blocksOf ["# Matrix A", "1", "# Matrix A", "2", "# Matrix A"]).filter
        fun b => b.1 == "A").getLast?.map (fun b => b.2) :=
  C10_duplicate_headers_last_block ["# Matrix A", "1", "# Matrix A", "2", "# Matrix A"]
    [("A", [[2]])] "A" rfl

/-! ## Graph lemmas -/

theorem mem_graphEdges (M : Matrix') (a b : Nat) :
    (a, b) ∈ graphEdges M ↔
      a ≤ b ∧ a < M.length ∧ b < M.length ∧
        (entry M a b ≠ 0 ∨ entry M b a ≠ 0) := by
  unfold graphEdges
  rw [List.mem_dedup, List.mem_flatMap]
  constructor
  · rintro ⟨i, hi, hj⟩
    rw [List.mem_range] at hi
    rw [List.mem_filterMap] at hj
    obtain ⟨j, hjr, hij⟩ := hj
    rw [List.mem_range] at hjr
    by_cases hc : entry M i j ≠ 0
    · rw [if_pos hc] at hij
      have hpair := Option.some.inj hij
      have h1 : min i j = a := congrArg Prod.fst hpair
      have h2 : max i j = b := congrArg Prod.snd hpair
      rcases le_total i j with hle | hle
      · rw [min_eq_left hle] at h1
        rw [max_eq_right hle] at h2
        subst h1; subst h2
        exact ⟨hle, hi, hjr, Or.inl hc⟩
      · rw [min_eq_right hle] at h1
        rw [max_eq_left hle] at h2
        subst h1; subst h2
        exact ⟨hle, hjr, hi, Or.inr hc⟩
    · rw [if_neg hc] at hij
      cases hij
  · rintro ⟨hab, ha, hb, hor⟩
    rcases hor with h | h
    · refine ⟨a, ?_, ?_⟩
      · rw [List.mem_range]; exact ha
      · rw [List.mem_filterMap]
        refine ⟨b, ?_, ?_⟩
        · rw [List.mem_range]; exact hb
        · rw [if_pos h, min_eq_left hab, max_eq_right hab]
    · refine ⟨b, ?_, ?_⟩
      · rw [List.mem_range]; exact hb
      · rw [List.mem_filterMap]
        refine ⟨a, ?_, ?_⟩
        · rw [List.mem_range]; exact ha
        · rw [if_pos h, min_eq_right hab, max_eq_left hab]

theorem mem_nbhd (M : Matrix') (v j : Nat) :
    j ∈ nbhd M v ↔ j < M.length ∧ (entry M v j ≠ 0 ∨ entry M j v ≠ 0) := by
  unfold nbhd
  rw [Finset.mem_filter, Finset.mem_range]

theorem mem_nbrSet (M : Matrix') (v u : Nat) :
    u ∈ nbrSet M v ↔
      u ≠ v ∧ u < M.length ∧ (entry M v u ≠ 0 ∨ entry M u v ≠ 0) := by
  unfold nbrSet
  rw [Finset.mem_erase, mem_nbhd]

theorem entry_zero_of_ge (M : Matrix') (i j : Nat) (h : M.length ≤ i) :
    entry M i j = 0 := by
  unfold entry
  rw [List.getD_eq_default _ _ h]
  rfl

theorem neighborCount_eq_card_nbrSet (M : Matrix') (v : Nat) :
    neighborCount M v = (nbrSet M v).card := by
  unfold neighborCount nbrSet nbhd
  congr 1
  ext u
  rw [Finset.mem_filter, Finset.mem_range, Finset.mem_erase, Finset.mem_filter,
    Finset.mem_range]
  tauto

/-! ## Claims about graph construction and degrees -/

/-- C1 (counterexample): a non-zero diagonal entry does produce an edge
and does contribute to the degree.  On the 1×1 matrix `[[1]]` the
constructed graph has the self-loop `(0,0)` and the degree dictionary
reports degree 2 for node 0, while node 0 has no distinct neighbour
`j ≠ 0`. -/
theorem C1_selfloop_cex :
    (0, 0) ∈ graphEdges [[1]] ∧ nxDegree [[1]] 0 = 2 ∧
      neighborCount [[1]] 0 = 0 := by
  refine ⟨?_, by decide, by decide⟩
  rw [mem_graphEdges]
  refine ⟨le_refl 0, by decide, by decide, Or.inl (by decide)⟩

/-- C1 (amended): a non-zero diagonal entry `M[v][v]` produces the
self-loop edge `(v,v)`, and the degree reported by the metrics
computation is the number of distinct neighbours `j ≠ v` plus 2 for a
self-loop (`networkx` counts a self-loop twice in the degree). -/
theorem C1_selfloop_degree (M : Matrix') (v : Nat) :
    ((v, v) ∈ graphEdges M ↔ v < M.length ∧ entry M v v ≠ 0) ∧
    nxDegree M v = neighborCount M v + (if entry M v v ≠ 0 then 2 else 0) := by
  constructor
  · rw [mem_graphEdges]
    constructor
    · rintro ⟨_, hv, _, hor⟩
      rcases hor with h | h
      · exact ⟨hv, h⟩
      · exact ⟨hv, h⟩
    · rintro ⟨hv, h⟩
      exact ⟨le_refl v, hv, hv, Or.inl h⟩
  · unfold nxDegree
    rw [neighborCount_eq_card_nbrSet]
    by_cases hv : v ∈ nbhd M v
    · have hvm := (mem_nbhd M v v).mp hv
      have hvne : entry M v v ≠ 0 := by
        rcases hvm.2 with h | h
        · exact h
        · exact h
      have hcard : 1 ≤ (nbhd M v).card := Finset.card_pos.mpr ⟨v, hv⟩
      have herase : (nbrSet M v).card = (nbhd M v).card - 1 := by
        unfold nbrSet
        exact Finset.card_erase_of_mem hv
      rw [if_pos hv, if_pos hvne, herase]
      omega
    · have h0 : entry M v v = 0 := by
        by_cases hvlen : v < M.length
        · by_contra hne
          exact hv ((mem_nbhd M v v).mpr ⟨hvlen, Or.inl hne⟩)
        · exact entry_zero_of_ge M v v (Nat.le_of_not_lt hvlen)
      have herase : nbrSet M v = nbhd M v := Finset.erase_eq_of_not_mem hv
      rw [if_neg hv, if_neg (by simp [h0]), herase]

/-- Witness for C1 (amended) at the self-loop matrix `[[1]]`. -/
theorem C1_selfloop_degree_witness :
    nxDegree [[1]] 0 = neighborCount [[1]] 0 +
      (if entry [[1]] 0 0 ≠ 0 then 2 else 0) :=
  (C1_selfloop_degree [[1]] 0).2

/-- C3: symmetrize-by-OR.  For indices `i < j` inside the matrix, the
undirected edge `(i,j)` is in the constructed graph's edge set iff
`M[i][j] ≠ 0` or `M[j][i] ≠ 0`. -/
theorem C3_edge_iff_or (M : Matrix') (i j : Nat) (hij : i < j) (hj : j < M.length) :
    (i, j) ∈ graphEdges M ↔ (entry M i j ≠ 0 ∨ entry M j i ≠ 0) := by
  rw [mem_graphEdges]
  constructor
  · rintro ⟨_, _, _, h⟩
    exact h
  · intro h
    exact ⟨Nat.le_of_lt hij, Nat.lt_trans hij hj, hj, h⟩

/-- Witness for C3: the asymmetric matrix `[[0,1],[0,0]]` still yields
the undirected edge `(0,1)`. -/
theorem C3_edge_iff_or_witness : (0, 1) ∈ graphEdges [[0, 1], [0, 0]] :=
  (C3_edge_iff_or [[0, 1], [0, 0]] 0 1 (by decide) (by decide)).mpr
    (Or.inl (by decide))

/-! ## Counting triangles: `ntriangles` is twice the number of edges
among the neighbour set -/

theorem nbrSet_inter_eq (M : Matrix') (v w : Nat) :
    (nbrSet M v) ∩ ((nbhd M w).erase w) =
      (nbrSet M v).filter fun u => u ≠ w ∧ (entry M w u ≠ 0 ∨ entry M u w ≠ 0) := by
  ext u
  rw [Finset.mem_inter, Finset.mem_filter, Finset.mem_erase, mem_nbhd]
  constructor
  · rintro ⟨hu, hne, _, hor⟩
    exact ⟨hu, hne, hor⟩
  · rintro ⟨hu, hne, hor⟩
    have hlen : u < M.length := ((mem_nbrSet M v u).mp hu).2.1
    exact ⟨hu, hne, hlen, hor⟩

theorem triCount_eq_sum_ite (M : Matrix') (v : Nat) :
    triCount M v = ∑ w ∈ nbrSet M v, ∑ u ∈ nbrSet M v,
      if u ≠ w ∧ (entry M w u ≠ 0 ∨ entry M u w ≠ 0) then 1 else 0 := by
  unfold triCount
  apply Finset.sum_congr rfl
  intro w _
  rw [nbrSet_inter_eq, Finset.card_filter]

theorem ite_ne_split (u w : Nat) (P : Prop) [Decidable P] :
    (if u ≠ w ∧ P then (1 : Nat) else 0) =
      (if u < w ∧ P then 1 else 0) + (if w < u ∧ P then 1 else 0) := by
  by_cases hP : P
  · rcases lt_trichotomy u w with h | h | h
    · rw [if_pos ⟨ne_of_lt h, hP⟩, if_pos ⟨h, hP⟩,
        if_neg (fun hc => lt_asymm h hc.1)]
    · subst h
      rw [if_neg (fun hc => hc.1 rfl), if_neg (fun hc => lt_irrefl u hc.1)]
    · rw [if_pos ⟨ne_of_gt h, hP⟩, if_neg (fun hc => lt_asymm h hc.1),
        if_pos ⟨h, hP⟩]
  · rw [if_neg (fun hc => hP hc.2), if_neg (fun hc => hP hc.2),
      if_neg (fun hc => hP hc.2)]

theorem triCount_eq_two_mul (M : Matrix') (v : Nat) :
    triCount M v = 2 * edgesAmong M v := by
  rw [triCount_eq_sum_ite]
  have hsplit : ∀ w ∈ nbrSet M v, (∑ u ∈ nbrSet M v,
      if u ≠ w ∧ (entry M w u ≠ 0 ∨ entry M u w ≠ 0) then (1 : Nat) else 0) =
      (∑ u ∈ nbrSet M v,
        if u < w ∧ (entry M w u ≠ 0 ∨ entry M u w ≠ 0) then 1 else 0) +
      (∑ u ∈ nbrSet M v,
        if w < u ∧ (entry M w u ≠ 0 ∨ entry M u w ≠ 0) then 1 else 0) := by
    intro w _
    rw [← Finset.sum_add_distrib]
    apply Finset.sum_congr rfl
    intro u _
    exact ite_ne_split u w _
  rw [Finset.sum_congr rfl hsplit, Finset.sum_add_distrib]
  have hB : (∑ w ∈ nbrSet M v, ∑ u ∈ nbrSet M v,
      if w < u ∧ (entry M w u ≠ 0 ∨ entry M u w ≠ 0) then (1 : Nat) else 0) =
      edgesAmong M v := by
    unfold edgesAmong
    apply Finset.sum_congr rfl
    intro w _
    rw [Finset.card_filter]
  have hA : (∑ w ∈ nbrSet M v, ∑ u ∈ nbrSet M v,
      if u < w ∧ (entry M w u ≠ 0 ∨ entry M u w ≠ 0) then (1 : Nat) else 0) =
      edgesAmong M v := by
    rw [Finset.sum_comm, ← hB]
    apply Finset.sum_congr rfl
    intro w _
    apply Finset.sum_congr rfl
    intro u _
    exact if_congr (and_congr_right fun _ => or_comm) rfl rfl
  rw [hA, hB]
  omega

theorem triCount_eq_zero_of_small (M : Matrix') (v : Nat)
    (h : (nbrSet M v).card ≤ 1) : triCount M v = 0 := by
  unfold triCount
  apply Finset.sum_eq_zero
  intro w hw
  rw [Finset.card_eq_zero, Finset.eq_empty_iff_forall_not_mem]
  intro u hu
  rw [Finset.mem_inter, Finset.mem_erase] at hu
  exact hu.2.1 (Finset.card_le_one.mp h u hu.1 w hw)

theorem triCount_le_bound (M : Matrix') (v : Nat) :
    triCount M v ≤ (nbrSet M v).card * ((nbrSet M v).card - 1) := by
  unfold triCount
  have hterm : ∀ w ∈ nbrSet M v,
      ((nbrSet M v) ∩ ((nbhd M w).erase w)).card ≤ (nbrSet M v).card - 1 := by
    intro w hw
    have hsub : (nbrSet M v) ∩ ((nbhd M w).erase w) ⊆ (nbrSet M v).erase w := by
      intro u hu
      rw [Finset.mem_inter, Finset.mem_erase] at hu
      rw [Finset.mem_erase]
      exact ⟨hu.2.1, hu.1⟩
    calc ((nbrSet M v) ∩ ((nbhd M w).erase w)).card
        ≤ ((nbrSet M v).erase w).card := Finset.card_le_card hsub
      _ = (nbrSet M v).card - 1 := Finset.card_erase_of_mem hw
  calc ∑ w ∈ nbrSet M v, ((nbrSet M v) ∩ ((nbhd M w).erase w)).card
      ≤ ∑ _w ∈ nbrSet M v, ((nbrSet M v).card - 1) := Finset.sum_le_sum hterm
    _ = (nbrSet M v).card * ((nbrSet M v).card - 1) := by
        rw [Finset.sum_const, smul_eq_mul]

/-- C2: the local clustering coefficient equals 0 when the node has
fewer than two distinct neighbours, and equals `T / (k*(k-1)/2)`
otherwise, where `k` is the number of distinct neighbours of `v` and
`T` the number of edges among them; it always lies in `[0, 1]`; and on a
node without a self-loop, `k` is exactly the degree reported by the
degree dictionary. -/
theorem C2_clustering_formula (M : Matrix') (v : Nat) :
    (clusteringCoeff M v = if (nbrSet M v).card < 2 then 0
      else (edgesAmong M v : ℚ) /
        (((nbrSet M v).card : ℚ) * (((nbrSet M v).card : ℚ) - 1) / 2)) ∧
    0 ≤ clusteringCoeff M v ∧ clusteringCoeff M v ≤ 1 ∧
    (entry M v v = 0 → nxDegree M v = (nbrSet M v).card) := by
  have htwice := triCount_eq_two_mul M v
  refine ⟨?_, ?_, ?_, ?_⟩
  · by_cases ht : triCount M v = 0
    · have hT : edgesAmong M v = 0 := by omega
      rw [clusteringCoeff, if_pos ht, hT]
      by_cases hk : (nbrSet M v).card < 2
      · rw [if_pos hk]
      · rw [if_neg hk, Nat.cast_zero, zero_div]
    · have hk2 : 2 ≤ (nbrSet M v).card := by
        by_contra hc
        exact ht (triCount_eq_zero_of_small M v (by omega))
      rw [clusteringCoeff, if_neg ht, if_neg (by omega : ¬ (nbrSet M v).card < 2)]
      rw [htwice]
      push_cast [Nat.cast_sub (by omega : 1 ≤ (nbrSet M v).card)]
      rw [div_div_eq_mul_div]
      ring
  · rw [clusteringCoeff]
    by_cases ht : triCount M v = 0
    · rw [if_pos ht]
    · rw [if_neg ht]
      positivity
  · rw [clusteringCoeff]
    by_cases ht : triCount M v = 0
    · rw [if_pos ht]
      norm_num
    · rw [if_neg ht]
      have hk2 : 2 ≤ (nbrSet M v).card := by
        by_contra hc
        exact ht (triCount_eq_zero_of_small M v (by omega))
      have hle := triCount_le_bound M v
      have hpos : 0 < ((nbrSet M v).card * ((nbrSet M v).card - 1) : ℕ) :=
        Nat.mul_pos (by omega) (by omega)
      rw [div_le_one (by exact_mod_cast hpos)]
      exact_mod_cast hle
  · intro h0
    unfold nxDegree
    have hns : v ∉ nbhd M v := by
      rw [mem_nbhd]
      rintro ⟨_, hor⟩
      rcases hor with h | h
      · exact h h0
      · exact h h0
    rw [if_neg hns]
    unfold nbrSet
    rw [Finset.erase_eq_of_not_mem hns]
    omega

/-- Witness for C2: on the triangle matrix, node 0 has no self-loop and
its reported degree equals its distinct-neighbour count. -/
theorem C2_clustering_formula_witness :
    nxDegree [[0, 1, 1], [1, 0, 1], [1, 1, 0]] 0 =
      (nbrSet [[0, 1, 1], [1, 0, 1], [1, 1, 0]] 0).card :=
  (C2_clustering_formula [[0, 1, 1], [1, 0, 1], [1, 1, 0]] 0).2.2.2 (by decide)

/-! ## Round-trip through the edge set -/

theorem mem_graphEdges_pair (M : Matrix') (i j : Nat) (hi : i < M.length)
    (hj : j < M.length) (hSym : SymmM M) :
    ((min i j, max i j) ∈ graphEdges M) ↔ entry M i j ≠ 0 := by
  rw [mem_graphEdges]
  rcases le_total i j with hle | hle
  · rw [min_eq_left hle, max_eq_right hle]
    constructor
    · rintro ⟨_, _, _, hor⟩
      rcases hor with h | h
      · exact h
      · rw [hSym i hi j hj]
        exact h
    · intro h
      exact ⟨hle, hi, hj, Or.inl h⟩
  · rw [min_eq_right hle, max_eq_left hle]
    constructor
    · rintro ⟨_, _, _, hor⟩
      rcases hor with h | h
      · rw [hSym i hi j hj]
        exact h
      · exact h
    · intro h
      exact ⟨hle, hj, hi, Or.inr h⟩

/-- C9 (counterexample): the round-trip fails for a symmetric
zero-diagonal matrix of non-negative integers whose entries are not all
0/1: from `[[0,2],[2,0]]` the graph has the single edge `(0,1)`, and
rebuilding the matrix from the edge set yields `[[0,1],[1,0]]`, not the
original. -/
theorem C9_roundtrip_cex :
    SymmM [[0, 2], [2, 0]] ∧ ZeroDiagM [[0, 2], [2, 0]] ∧
    SquareM [[0, 2], [2, 0]] ∧ NonNegM [[0, 2], [2, 0]] ∧
    reconstruct [[0, 2], [2, 0]] = [[0, 1], [1, 0]] ∧
    reconstruct [[0, 2], [2, 0]] ≠ [[0, 2], [2, 0]] := by
  refine ⟨?_, ?_, ?_, ?_, by decide, by decide⟩
  · unfold SymmM
    decide
  · unfold ZeroDiagM
    decide
  · unfold SquareM
    decide
  · unfold NonNegM
    decide

/-- C9 (amended): for every square symmetric zero-diagonal matrix with
entries in `{0,1}`, building the graph and rebuilding an adjacency
matrix from its edge set reproduces the matrix exactly. -/
theorem C9_roundtrip_amended (M : Matrix') (hSq : SquareM M) (hSym : SymmM M)
    (hDiag : ZeroDiagM M) (h01 : ZeroOneM M) : reconstruct M = M := by
  apply List.ext_getElem
  · unfold reconstruct
    rw [List.length_map, List.length_range]
  · intro i h1 h2
    have hi : i < M.length := h2
    apply List.ext_getElem
    · simp only [reconstruct, List.getElem_map, List.getElem_range, List.length_map,
        List.length_range]
      exact (hSq (M[i]) (List.getElem_mem hi)).symm
    · intro j hj1 hj2
      simp only [reconstruct, List.getElem_map, List.getElem_range]
      have hjlen : j < M.length := by
        have hr := hSq (M[i]) (List.getElem_mem hi)
        rw [← hr]
        exact hj2
      have hentry : entry M i j = M[i][j] := by
        unfold entry
        rw [List.getD_eq_getElem M [] hi, List.getD_eq_getElem (M[i]) 0 hj2]
      by_cases hij : i = j
      · subst hij
        have h0 : entry M i i = 0 := hDiag i hi
        have hnot : (min i i, max i i) ∉ graphEdges M := by
          rw [min_self, max_self, mem_graphEdges]
          rintro ⟨_, _, _, hor⟩
          rcases hor with h | h <;> exact h h0
        rw [if_neg hnot, ← hentry]
        exact h0.symm
      · rcases h01 i hi j hjlen with h0 | h1v
        · have hnot : (min i j, max i j) ∉ graphEdges M := by
            rw [mem_graphEdges_pair M i j hi hjlen hSym]
            intro hc
            exact hc h0
          rw [if_neg hnot, ← hentry]
          exact h0.symm
        · have hyes : (min i j, max i j) ∈ graphEdges M := by
            rw [mem_graphEdges_pair M i j hi hjlen hSym, h1v]
            norm_num
          rw [if_pos hyes, ← hentry]
          exact h1v.symm

/-- Witness for C9 (amended) on the 0/1 path matrix. -/
theorem C9_roundtrip_witness :
    reconstruct [[0, 1, 0], [1, 0, 1], [0, 1, 0]] =
      [[0, 1, 0], [1, 0, 1], [0, 1, 0]] := by
  apply C9_roundtrip_amended
  · unfold SquareM
    decide
  · unfold SymmM
    decide
  · unfold ZeroDiagM
    decide
  · unfold ZeroOneM
    decide

/-! ## The healthy / non-healthy grouping -/

/-- C8: the grouping of `main` puts a network name in `healthy_names`
iff the substring "healthy" occurs in it and in `sick` otherwise; each
group is a sublist of the input (so input order is preserved), every
input name lands in exactly one group, and the spec's example evaluates
as stated. -/
theorem C8_grouping (names : List String) :
    (healthy_names names).Sublist names ∧ (sick names).Sublist names ∧
    (∀ n, n ∈ healthy_names names ↔ n ∈ names ∧ pyIn "healthy" n = true) ∧
    (∀ n, n ∈ sick names ↔ n ∈ names ∧ pyIn "healthy" n = false) ∧
    (∀ n ∈ names, (n ∈ healthy_names names ∧ n ∉ sick names) ∨
      (n ∈ sick names ∧ n ∉ healthy_names names)) ∧
    healthy_names ["healthy_1", "sick_1", "healthy_2"] =
      ["healthy_1", "healthy_2"] ∧
    sick ["healthy_1", "sick_1", "healthy_2"] = ["sick_1"] := by
  refine ⟨List.filter_sublist _, List.filter_sublist _, ?_, ?_, ?_, rfl, rfl⟩
  · intro n
    unfold healthy_names
    rw [List.mem_filter]
  · intro n
    unfold sick
    rw [List.mem_filter]
    constructor
    · rintro ⟨h1, h2⟩
      exact ⟨h1, by simpa using h2⟩
    · rintro ⟨h1, h2⟩
      exact ⟨h1, by simp [h2]⟩
  · intro n hn
    by_cases hp : pyIn "healthy" n = true
    · left
      constructor
      · exact List.mem_filter.mpr ⟨hn, hp⟩
      · intro hmem
        have h2 := (List.mem_filter.mp hmem).2
        simp [hp] at h2
    · right
      have hp2 : pyIn "healthy" n = false := Bool.eq_false_iff.mpr hp
      constructor
      · exact List.mem_filter.mpr ⟨hn, by simp [hp2]⟩
      · intro hmem
        exact hp (List.mem_filter.mp hmem).2

/-- Witness for C8 at the spec's example list. -/
theorem C8_grouping_witness :
    healthy_names ["healthy_1", "sick_1", "healthy_2"] =
      ["healthy_1", "healthy_2"] ∧
    sick ["healthy_1", "sick_1", "healthy_2"] = ["sick_1"] :=
  ⟨(C8_grouping ["healthy_1", "sick_1", "healthy_2"]).2.2.2.2.2.1,
   (C8_grouping ["healthy_1", "sick_1", "healthy_2"]).2.2.2.2.2.2⟩

end Licenta
